import Mathlib

/-!
Shallow embedding of the go-notes repository snippets.

The repository is a collection of standalone Go teaching snippets.  We embed:

* the pointer-swap challenge (src/challenges/pointers/numberswap/numberswap.go);
* the in-place array-doubling challenge (DoubleArray, src/unnamed/part_000),
  where an out-of-range slice index is a Go runtime panic, embedded as Option;
* the slice re-slicing example (src/examples/slices/slices.go), where a Go
  slice is a view (start, stop) into an underlying array and re-slicing
  beyond capacity panics, embedded as Option;
* the singly linked list challenge (src/challenges/pointers/linkedlist):
  the repository holds only the exercise statement and its expected output,
  so the list is modelled from the spec, with the pointer heap made explicit
  as an arena of nodes so that termination and acyclicity of the next-chain
  are real theorems rather than artifacts of the embedding.
-/

namespace GoNotes

/-! ## Number swap -/

/-- The Swap function of numberswap.go: reads x from the first cell, writes the
second cell into the first, writes x into the second; the pair is the final
contents of the two cells. -/
def Swap (a b : Int) : Int × Int :=
  let x := a
  let a2 := b
  let b2 := x
  (a2, b2)

/-! ## DoubleArray -/

/-- Go int arithmetic on a 64-bit platform: results wrap to the two's
complement range [-2^63, 2^63) modulo 2^64. -/
def wrap64 (x : Int) : Int := (x + 2 ^ 63) % 2 ^ 64 - 2 ^ 63

/-- The loop of DoubleArray: executes a[i] *= 2 and i++ while i < l, with the
loop guard carried as the remaining iteration count rem = l - i so that the
recursion is structural; the product wraps as Go int does, and none embeds the
Go runtime panic of an out-of-range slice access a[i]. -/
def doubleFrom (a : List Int) (i : Nat) : Nat → Option (List Int)
  | 0 => some a
  | rem + 1 =>
    match a[i]? with
    | none => none
    | some x => doubleFrom (a.set i (wrap64 (x * 2))) (i + 1) rem

/-- The DoubleArray function of src/unnamed/part_000: doubles a[i] for i from 0
to the hard-coded constant l = 5 (exclusive). -/
def DoubleArray (arr : List Int) : Option (List Int) :=
  doubleFrom arr 0 5

/-! ## Slices -/

/-- A Go slice of int: a view into an underlying backing array, delimited by
a start offset and a stop offset. -/
structure Slice where
  arr : List Int
  start : Nat
  stop : Nat
deriving DecidableEq

/-- A slice literal such as []int\x7b2, 3, 5\x7d: the whole backing array. -/
def Slice.ofLit (xs : List Int) : Slice := ⟨xs, 0, xs.length⟩

/-- len(s) for a Go slice. -/
def Slice.len (s : Slice) : Nat := s.stop - s.start

/-- cap(s) for a Go slice: from the start offset to the end of the backing
array. -/
def Slice.cap (s : Slice) : Nat := s.arr.length - s.start

/-- The elements the slice presents, in order. -/
def Slice.elems (s : Slice) : List Int := (s.arr.drop s.start).take s.len

/-- Go re-slicing s[lo:hi]: shares the backing array, shifting the view; it
panics (none) unless lo ≤ hi ≤ cap(s). -/
def Slice.reslice (s : Slice) (lo hi : Nat) : Option Slice :=
  if lo ≤ hi ∧ hi ≤ s.cap then some ⟨s.arr, s.start + lo, s.start + hi⟩ else none

/-- Go s[:hi], that is s[0:hi]. -/
def Slice.resliceTo (s : Slice) (hi : Nat) : Option Slice := s.reslice 0 hi

/-- Go s[lo:], that is s[lo:len(s)]. -/
def Slice.resliceFrom (s : Slice) (lo : Nat) : Option Slice := s.reslice lo s.len

/-! ## Linked list

Modelled from the spec: the repository contains only the exercise statement
(src/challenges/pointers/linkedlist/README.md) with its expected output, not
the Go implementation, so Add, Delete and Print are modelled from the spec
sections 3 and 4.1.  Nodes live in an arena (allocation appends to it); a
pointer is an arena index, nil is none.  Traversals carry fuel, since nothing
in the raw state type forbids a cyclic next-chain: that the fuel always
suffices on reachable states is exactly the termination invariant of claim C5.
Delete leaves the excised node in the arena, unreachable, as Go garbage
collection would. -/

/-- A linked-list node: an integer value and a pointer (arena index) to the
next node, or none at the end of the chain. -/
structure Node where
  value : Int
  next : Option Nat
deriving DecidableEq

/-- A linked list: the arena of allocated nodes and the head pointer. -/
structure LinkedList where
  nodes : List Node
  head : Option Nat
deriving DecidableEq

/-- The empty list: no allocations, nil head. -/
def LinkedList.empty : LinkedList := ⟨[], none⟩

/-- Modelled from the spec: the tail-finding traversal of Add, following next
from index i until a node whose next is none, with fuel. -/
def lastIdx (nodes : List Node) : Nat → Nat → Option Nat
  | _, 0 => none
  | i, fuel + 1 =>
    match nodes[i]? with
    | none => none
    | some nd =>
      match nd.next with
      | none => some i
      | some j => lastIdx nodes j fuel

/-- Modelled from the spec: Add(value) appends a new node holding value at the
tail.  If the list is empty the new node becomes head; otherwise the current
last node's next is linked to the new node. -/
def LinkedList.Add (l : LinkedList) (v : Int) : LinkedList :=
  match l.head with
  | none => ⟨l.nodes ++ [⟨v, none⟩], some l.nodes.length⟩
  | some h =>
    match lastIdx l.nodes h (l.nodes.length + 1) with
    | none => l
    | some last =>
      match l.nodes[last]? with
      | none => l
      | some nd =>
        ⟨(l.nodes.set last ⟨nd.value, some l.nodes.length⟩) ++ [⟨v, none⟩], l.head⟩

/-- Modelled from the spec: the interior traversal of Delete, walking from
index i and redirecting the predecessor of the first node (strictly after i)
whose value equals v, with fuel. -/
def delFrom (nodes : List Node) (v : Int) : Nat → Nat → List Node
  | _, 0 => nodes
  | i, fuel + 1 =>
    match nodes[i]? with
    | none => nodes
    | some nd =>
      match nd.next with
      | none => nodes
      | some j =>
        match nodes[j]? with
        | none => nodes
        | some ndj =>
          if ndj.value = v then nodes.set i ⟨nd.value, ndj.next⟩
          else delFrom nodes v j fuel

/-- Modelled from the spec: Delete(value) removes the first node in
head-to-tail order whose value matches.  If it is the head, head is reassigned
to its next; otherwise the preceding node's next is redirected to skip it; if
no node matches, the list is unchanged. -/
def LinkedList.Delete (l : LinkedList) (v : Int) : LinkedList :=
  match l.head with
  | none => l
  | some h =>
    match l.nodes[h]? with
    | none => l
    | some nd =>
      if nd.value = v then ⟨l.nodes, nd.next⟩
      else ⟨delFrom l.nodes v h (l.nodes.length + 1), l.head⟩

/-- The chain of arena indices traversed from a pointer, with fuel: none when
the fuel runs out or a pointer dangles. -/
def chain (nodes : List Node) : Option Nat → Nat → Option (List Nat)
  | none, _ => some []
  | some _, 0 => none
  | some i, fuel + 1 =>
    match nodes[i]? with
    | none => none
    | some nd => (chain nodes nd.next fuel).map (fun rest => i :: rest)

/-- The value stored at arena index i (defaulting on a dangling index). -/
def valAt (nodes : List Node) (i : Nat) : Int := (nodes.getD i ⟨0, none⟩).value

/-- The ordered values of the list, traversing from head with fuel.  The fuel
one-more-than-arena-size is enough for every terminating chain, so none means
the next-chain does not terminate or dangles. -/
def LinkedList.values (l : LinkedList) : Option (List Int) :=
  (chain l.nodes l.head (l.nodes.length + 1)).map (List.map (valAt l.nodes))

/-- Modelled from the spec: the rendering of a value sequence, values joined
by the arrow separator and terminated by the end marker nil. -/
def render : List Int → String
  | [] => "nil"
  | v :: vs => toString v ++ " -> " ++ render vs

/-- Modelled from the spec: Print produces the rendering of the ordered values
from head to the end; none when the traversal does not terminate. -/
def LinkedList.Print (l : LinkedList) : Option String :=
  l.values.map render

/-- An operation on the list: the two mutators of the API. -/
inductive Op
  | add (v : Int)
  | del (v : Int)
deriving DecidableEq

/-- Run one operation. -/
def step (l : LinkedList) : Op → LinkedList
  | .add v => l.Add v
  | .del v => l.Delete v

/-- Run a sequence of operations from the empty list. -/
def run (ops : List Op) : LinkedList := ops.foldl step LinkedList.empty

/-- The abstract (mathematical sequence) meaning of one operation: Add appends,
Delete erases the first occurrence. -/
def absStep (xs : List Int) : Op → List Int
  | .add v => xs ++ [v]
  | .del v => xs.eraseP (fun x => x == v)

/-- The abstract meaning of an operation sequence from the empty sequence. -/
def absRun (ops : List Op) : List Int := ops.foldl absStep []

/-- The chain relation: Chains nodes p idxs holds when following next from
pointer p visits exactly the arena indices idxs and reaches nil. -/
inductive Chains (nodes : List Node) : Option Nat → List Nat → Prop
  | nil : Chains nodes none []
  | cons {i : Nat} {nd : Node} {rest : List Nat} :
      nodes[i]? = some nd → Chains nodes nd.next rest →
      Chains nodes (some i) (i :: rest)

/-- Well-formedness of a list state: the next-chain from head terminates. -/
def WF (l : LinkedList) : Prop := ∃ idxs, Chains l.nodes l.head idxs

/-! ## Chain lemmas -/

theorem chains_none {nodes : List Node} {L : List Nat}
    (h : Chains nodes none L) : L = [] := by
  cases h
  rfl

theorem chains_nil_pointer {nodes : List Node} {o : Option Nat}
    (h : Chains nodes o []) : o = none := by
  cases h
  rfl

theorem chains_det {nodes : List Node} {o : Option Nat} {L1 L2 : List Nat}
    (h1 : Chains nodes o L1) (h2 : Chains nodes o L2) : L1 = L2 := by
  induction h1 generalizing L2 with
  | nil => exact (chains_none h2).symm
  | cons hget _hrest ih =>
    cases h2 with
    | cons hget2 hrest2 =>
      rw [hget] at hget2
      cases hget2
      rw [ih hrest2]

theorem chains_suffix_of_mem {nodes : List Node} {o : Option Nat} {L : List Nat}
    (h : Chains nodes o L) {i : Nat} (hm : i ∈ L) :
    ∃ L2, L2 <:+ L ∧ Chains nodes (some i) L2 := by
  induction h with
  | nil => cases hm
  | cons hget hrest ih =>
    rcases List.mem_cons.mp hm with rfl | hm2
    · exact ⟨_, List.suffix_refl _, Chains.cons hget hrest⟩
    · obtain ⟨L2, hsuf, hch⟩ := ih hm2
      exact ⟨L2, hsuf.trans (List.suffix_cons _ _), hch⟩

theorem chains_nodup {nodes : List Node} {o : Option Nat} {L : List Nat}
    (h : Chains nodes o L) : L.Nodup := by
  induction h with
  | nil => exact List.nodup_nil
  | cons hget hrest ih =>
    refine List.nodup_cons.mpr ⟨fun hmem => ?_, ih⟩
    obtain ⟨L2, hsuf, hch⟩ := chains_suffix_of_mem hrest hmem
    have hdet : L2 = _ :: _ := chains_det hch (Chains.cons hget hrest)
    have hlen := hsuf.length_le
    rw [hdet] at hlen
    simp at hlen

theorem chains_lt {nodes : List Node} {o : Option Nat} {L : List Nat}
    (h : Chains nodes o L) : ∀ i ∈ L, i < nodes.length := by
  induction h with
  | nil => intro i hi; cases hi
  | cons hget _hrest ih =>
    intro k hk
    rcases List.mem_cons.mp hk with rfl | hk2
    · exact (List.getElem?_eq_some.mp hget).1
    · exact ih k hk2

theorem length_le_of_nodup_lt {L : List Nat} {n : Nat}
    (hnd : L.Nodup) (hlt : ∀ i ∈ L, i < n) : L.length ≤ n := by
  classical
  have hsub : L.toFinset ⊆ Finset.range n := by
    intro i hi
    exact Finset.mem_range.mpr (hlt i (List.mem_toFinset.mp hi))
  have hcard := Finset.card_le_card hsub
  rw [List.toFinset_card_of_nodup hnd, Finset.card_range] at hcard
  exact hcard

theorem chains_length_le {nodes : List Node} {o : Option Nat} {L : List Nat}
    (h : Chains nodes o L) : L.length ≤ nodes.length :=
  length_le_of_nodup_lt (chains_nodup h) (chains_lt h)

theorem chain_eq_of_chains {nodes : List Node} {o : Option Nat} {L : List Nat}
    (h : Chains nodes o L) : ∀ {fuel : Nat}, L.length ≤ fuel →
    chain nodes o fuel = some L := by
  induction h with
  | nil => intro fuel _; cases fuel <;> rfl
  | @cons i nd rest hget _hrest ih =>
    intro fuel hfuel
    match fuel with
    | f + 1 =>
      have hf : rest.length ≤ f := by simpa using hfuel
      simp [chain, hget, ih hf]

theorem values_eq_of_chains {l : LinkedList} {L : List Nat}
    (h : Chains l.nodes l.head L) :
    l.values = some (L.map (valAt l.nodes)) := by
  have hlen : L.length ≤ l.nodes.length + 1 :=
    Nat.le_succ_of_le (chains_length_le h)
  simp [LinkedList.values, chain_eq_of_chains h hlen]

theorem chains_cons_pointer {nodes : List Node} {o : Option Nat} {x : Nat}
    {xs : List Nat} (h : Chains nodes o (x :: xs)) : o = some x := by
  cases h
  rfl

theorem chains_set_not_mem {nodes : List Node} {o : Option Nat} {L : List Nat}
    (h : Chains nodes o L) {k : Nat} (hk : k ∉ L) {x : Node} :
    Chains (nodes.set k x) o L := by
  induction h with
  | nil => exact Chains.nil
  | @cons i nd rest hget _hrest ih =>
    have hki : k ≠ i := fun he => hk (he ▸ List.mem_cons_self i rest)
    have hget2 : (nodes.set k x)[i]? = some nd := by
      rw [List.getElem?_set_ne hki, hget]
    exact Chains.cons hget2 (ih (fun hm => hk (List.mem_cons_of_mem i hm)))

theorem mem_of_getLast?_eq {α : Type} : ∀ {l : List α} {a : α},
    l.getLast? = some a → a ∈ l := by
  intro l
  induction l with
  | nil => intro a h; simp at h
  | cons b t ih =>
    intro a h
    match t with
    | [] =>
      simp at h
      simp [h]
    | c :: t2 =>
      rw [List.getLast?_cons_cons] at h
      exact List.mem_cons_of_mem b (ih h)

/-! Reading values through the arena. -/

theorem valAt_of_getElem? {nodes : List Node} {k : Nat} {nd : Node}
    (h : nodes[k]? = some nd) : valAt nodes k = nd.value := by
  simp [valAt, List.getD_eq_getElem?_getD, h]

theorem valAt_congr {nodes nodes2 : List Node} {k : Nat}
    (h : nodes2[k]? = nodes[k]?) : valAt nodes2 k = valAt nodes k := by
  simp [valAt, List.getD_eq_getElem?_getD, h]

/-! The arena after an Add on a nonempty list: the old last node redirected to
the fresh index, the fresh node appended. -/

theorem getElem?_extend_ne {nodes : List Node} {k last : Nat} {x e : Node}
    (hk : k < nodes.length) (hne : k ≠ last) :
    ((nodes.set last x) ++ [e])[k]? = nodes[k]? := by
  rw [List.getElem?_append_left (by simpa using hk),
    List.getElem?_set_ne (Ne.symm hne)]

theorem getElem?_extend_self {nodes : List Node} {last : Nat} {x e : Node}
    (hlast : last < nodes.length) :
    ((nodes.set last x) ++ [e])[last]? = some x := by
  rw [List.getElem?_append_left (by simpa using hlast),
    List.getElem?_set_eq_of_lt x hlast]

theorem getElem?_extend_new {nodes : List Node} {last : Nat} {x e : Node} :
    ((nodes.set last x) ++ [e])[nodes.length]? = some e := by
  have hl : nodes.length = (nodes.set last x).length := (List.length_set nodes last x).symm
  rw [hl, List.getElem?_concat_length]

/-! Correctness of the tail-finding traversal. -/

theorem lastIdx_spec {nodes : List Node} : ∀ {o : Option Nat}
    {L : List Nat}, Chains nodes o L → ∀ {h0 : Nat}, o = some h0 →
    ∀ {fuel : Nat}, L.length ≤ fuel →
    ∃ last, L.getLast? = some last ∧ lastIdx nodes h0 fuel = some last := by
  intro o L hch
  induction hch with
  | nil => intro h0 heq; cases heq
  | @cons i nd rest hget hrest ih =>
    intro h0 heq fuel hfuel
    cases heq
    match fuel with
    | f + 1 =>
      cases hnext : nd.next with
      | none =>
        rw [hnext] at hrest
        have hre : rest = [] := chains_none hrest
        subst hre
        exact ⟨i, rfl, by simp [lastIdx, hget, hnext]⟩
      | some j =>
        have hf : rest.length ≤ f := by simpa using hfuel
        obtain ⟨last, hgl, hli⟩ := ih hnext hf
        have hne : rest ≠ [] := by
          intro he
          rw [he] at hgl
          simp at hgl
        refine ⟨last, ?_, ?_⟩
        · match rest, hne with
          | b :: t, _ => rw [List.getLast?_cons_cons]; exact hgl
        · simp [lastIdx, hget, hnext, hli]

theorem chains_last_next {nodes : List Node} {o : Option Nat} {L : List Nat}
    (hch : Chains nodes o L) : ∀ {last : Nat}, L.getLast? = some last →
    ∃ nd, nodes[last]? = some nd ∧ nd.next = none := by
  induction hch with
  | nil => intro last h; simp at h
  | @cons i nd rest hget hrest ih =>
    intro last hl
    cases rest with
    | nil =>
      simp at hl
      subst hl
      exact ⟨nd, hget, chains_nil_pointer hrest⟩
    | cons b t =>
      rw [List.getLast?_cons_cons] at hl
      exact ih hl

theorem valAt_extend {nodes : List Node} {last : Nat} {ndl x e : Node}
    (hndl : nodes[last]? = some ndl) (hx : x.value = ndl.value) {k : Nat}
    (hk : k < nodes.length) :
    valAt ((nodes.set last x) ++ [e]) k = valAt nodes k := by
  by_cases hne : k = last
  · subst hne
    rw [valAt_of_getElem? (getElem?_extend_self hk), hx, valAt_of_getElem? hndl]
  · exact valAt_congr (getElem?_extend_ne hk hne)

/-- Relinking the old last node to a freshly appended node extends the chain by
exactly the fresh index. -/
theorem chains_extend {nodes : List Node} {v : Int} : ∀ {o : Option Nat}
    {L : List Nat}, Chains nodes o L → ∀ {last : Nat} {ndl : Node},
    L.getLast? = some last → nodes[last]? = some ndl →
    Chains ((nodes.set last ⟨ndl.value, some nodes.length⟩) ++ [⟨v, none⟩]) o
      (L ++ [nodes.length]) := by
  intro o L hch
  induction hch with
  | nil => intro last ndl hl _; simp at hl
  | @cons i nd rest hget hrest ih =>
    intro last ndl hl hndl
    have hi : i < nodes.length := (List.getElem?_eq_some.mp hget).1
    cases rest with
    | nil =>
      simp at hl
      subst hl
      have hnde : nd = ndl := by
        rw [hget] at hndl
        exact Option.some.inj hndl
      subst hnde
      refine Chains.cons (getElem?_extend_self hi) ?_
      exact Chains.cons getElem?_extend_new Chains.nil
    | cons b t =>
      rw [List.getLast?_cons_cons] at hl
      have hlast_mem : last ∈ b :: t := mem_of_getLast?_eq hl
      have hnodup : (i :: b :: t).Nodup := chains_nodup (Chains.cons hget hrest)
      have hine : i ≠ last := by
        intro he
        subst he
        exact (List.nodup_cons.mp hnodup).1 hlast_mem
      refine Chains.cons ((getElem?_extend_ne hi hine).trans hget) ?_
      exact ih hl hndl

/-- Unfolding Add on an empty list. -/
theorem Add_empty {l : LinkedList} (hh : l.head = none) (v : Int) :
    l.Add v = ⟨l.nodes ++ [⟨v, none⟩], some l.nodes.length⟩ := by
  simp only [LinkedList.Add, hh]

/-- Unfolding Add on a nonempty list. -/
theorem Add_nonempty {l : LinkedList} {h0 last : Nat} {nd : Node}
    (hh : l.head = some h0)
    (hli : lastIdx l.nodes h0 (l.nodes.length + 1) = some last)
    (hget : l.nodes[last]? = some nd) (v : Int) :
    l.Add v =
      ⟨(l.nodes.set last ⟨nd.value, some l.nodes.length⟩) ++ [⟨v, none⟩],
        l.head⟩ := by
  simp only [LinkedList.Add, hh, hli, hget]

/-- Add appends the fresh index to the chain and the value to the sequence. -/
theorem Add_chains {l : LinkedList} {L : List Nat}
    (h : Chains l.nodes l.head L) (v : Int) :
    Chains (l.Add v).nodes (l.Add v).head (L ++ [l.nodes.length]) ∧
    (L ++ [l.nodes.length]).map (valAt (l.Add v).nodes) =
      L.map (valAt l.nodes) ++ [v] := by
  cases hh : l.head with
  | none =>
    rw [hh] at h
    have hL : L = [] := chains_none h
    subst hL
    rw [Add_empty hh v]
    refine ⟨Chains.cons (List.getElem?_concat_length _ _) Chains.nil, ?_⟩
    simp [valAt_of_getElem? (List.getElem?_concat_length l.nodes ⟨v, none⟩)]
  | some h0 =>
    rw [hh] at h
    have hfuel : L.length ≤ l.nodes.length + 1 :=
      Nat.le_succ_of_le (chains_length_le h)
    obtain ⟨last, hgl, hli⟩ := lastIdx_spec h rfl hfuel
    obtain ⟨ndl, hndl, _hnone⟩ := chains_last_next h hgl
    rw [Add_nonempty hh hli hndl v]
    constructor
    · rw [hh]
      exact chains_extend h hgl hndl
    · show (L ++ [l.nodes.length]).map (valAt ((l.nodes.set last
          ⟨ndl.value, some l.nodes.length⟩) ++ [⟨v, none⟩])) =
          L.map (valAt l.nodes) ++ [v]
      rw [List.map_append]
      have hmap : L.map (valAt ((l.nodes.set last
          ⟨ndl.value, some l.nodes.length⟩) ++ [⟨v, none⟩])) =
          L.map (valAt l.nodes) :=
        List.map_congr_left (fun k hk => valAt_extend hndl
          (show (Node.mk ndl.value (some l.nodes.length)).value = ndl.value from rfl)
          (chains_lt h k hk))
      rw [hmap]
      simp [valAt_of_getElem? getElem?_extend_new]

/-! ## Delete -/

/-- Unfolding Delete on an empty list. -/
theorem Delete_empty {l : LinkedList} (hh : l.head = none) (v : Int) :
    l.Delete v = l := by
  simp only [LinkedList.Delete, hh]

/-- Unfolding Delete when the head node matches. -/
theorem Delete_head {l : LinkedList} {h0 : Nat} {nd : Node} {v : Int}
    (hh : l.head = some h0) (hget : l.nodes[h0]? = some nd)
    (hv : nd.value = v) : l.Delete v = ⟨l.nodes, nd.next⟩ := by
  simp only [LinkedList.Delete, hh, hget, if_pos hv]

/-- Unfolding Delete when the head node does not match. -/
theorem Delete_tail {l : LinkedList} {h0 : Nat} {nd : Node} {v : Int}
    (hh : l.head = some h0) (hget : l.nodes[h0]? = some nd)
    (hv : ¬ nd.value = v) :
    l.Delete v = ⟨delFrom l.nodes v h0 (l.nodes.length + 1), l.head⟩ := by
  simp only [LinkedList.Delete, hh, hget, if_neg hv]

/-- The interior Delete traversal, when the start node does not match: the
chain from the start node afterwards carries the original value sequence with
the first match erased; values and untouched entries are preserved. -/
theorem delFrom_spec {nodes : List Node} {v : Int} : ∀ {o : Option Nat}
    {L : List Nat}, Chains nodes o L → ∀ {i : Nat}, o = some i →
    valAt nodes i ≠ v → ∀ {fuel : Nat}, L.length ≤ fuel →
    ∃ M, (delFrom nodes v i fuel).length = nodes.length ∧
      (∀ k, valAt (delFrom nodes v i fuel) k = valAt nodes k) ∧
      (∀ k, k ∉ L → (delFrom nodes v i fuel)[k]? = nodes[k]?) ∧
      Chains (delFrom nodes v i fuel) (some i) M ∧
      M.map (valAt nodes) = (L.map (valAt nodes)).eraseP (fun x => x == v) := by
  intro o L hch
  induction hch with
  | nil => intro i heq; cases heq
  | @cons i0 nd rest hget hrest ih =>
    intro i heq hvi fuel hfuel
    cases heq
    match fuel with
    | f + 1 =>
      cases hnext : nd.next with
      | none =>
        rw [hnext] at hrest
        have hre := chains_none hrest
        subst hre
        have hdf : delFrom nodes v i0 (f + 1) = nodes := by
          simp [delFrom, hget, hnext]
        rw [hdf]
        refine ⟨[i0], rfl, fun k => rfl, fun k _ => rfl,
          Chains.cons hget (by rw [hnext]; exact Chains.nil), ?_⟩
        rw [List.map_cons, List.map_nil,
          List.eraseP_cons_of_neg (by simp [hvi]), List.eraseP_nil]
      | some j =>
        rw [hnext] at hrest
        obtain ⟨ndj, rest2, hre, hgetj, hrest2⟩ :
            ∃ ndj rest2, rest = j :: rest2 ∧ nodes[j]? = some ndj ∧
              Chains nodes ndj.next rest2 := by
          cases hrest with
          | cons hg hr => exact ⟨_, _, rfl, hg, hr⟩
        subst hre
        have hnodup : (i0 :: j :: rest2).Nodup :=
          chains_nodup (Chains.cons hget
            (by rw [hnext]; exact Chains.cons hgetj hrest2))
        have hini : i0 ∉ j :: rest2 := (List.nodup_cons.mp hnodup).1
        have hi0 : i0 < nodes.length := (List.getElem?_eq_some.mp hget).1
        have hvi0 : valAt nodes i0 = nd.value := valAt_of_getElem? hget
        have hvjv : valAt nodes j = ndj.value := valAt_of_getElem? hgetj
        by_cases hv : ndj.value = v
        · have hdf : delFrom nodes v i0 (f + 1) =
              nodes.set i0 ⟨nd.value, ndj.next⟩ := by
            simp [delFrom, hget, hnext, hgetj, hv]
          rw [hdf]
          refine ⟨i0 :: rest2, List.length_set _ _ _, ?_, ?_, ?_, ?_⟩
          · intro k
            by_cases hk : k = i0
            · subst hk
              rw [valAt_of_getElem? (List.getElem?_set_eq_of_lt _ hi0), hvi0]
            · exact valAt_congr (List.getElem?_set_ne (Ne.symm hk))
          · intro k hkL
            refine List.getElem?_set_ne (fun he => hkL ?_)
            rw [← he]
            exact List.mem_cons_self _ _
          · refine Chains.cons (List.getElem?_set_eq_of_lt _ hi0) ?_
            exact chains_set_not_mem hrest2
              (fun hm => hini (List.mem_cons_of_mem _ hm))
          · rw [List.map_cons, List.map_cons, List.map_cons,
              List.eraseP_cons_of_neg (by simp [hvi]),
              List.eraseP_cons_of_pos (by simp [hvjv, hv])]
        · have hvj : valAt nodes j ≠ v := by rw [hvjv]; exact hv
          have hf : (j :: rest2).length ≤ f := by simpa using hfuel
          obtain ⟨M, hlen, hval, hpres, hch2, hvals⟩ := ih hnext hvj hf
          have hdf : delFrom nodes v i0 (f + 1) = delFrom nodes v j f := by
            simp [delFrom, hget, hnext, hgetj, hv]
          rw [hdf]
          refine ⟨i0 :: M, hlen, hval, ?_, ?_, ?_⟩
          · intro k hk
            exact hpres k (fun hm => hk (List.mem_cons_of_mem _ hm))
          · exact Chains.cons ((hpres i0 hini).trans hget)
              (by rw [hnext]; exact hch2)
          · rw [List.map_cons, List.map_cons,
              List.eraseP_cons_of_neg (by simp [hvi]), hvals]

/-- The interior Delete traversal leaves the arena untouched when no node
after the start matches. -/
theorem delFrom_no_match {nodes : List Node} {v : Int} : ∀ {o : Option Nat}
    {L : List Nat}, Chains nodes o L → ∀ {i : Nat}, o = some i →
    (∀ k ∈ L.tail, valAt nodes k ≠ v) → ∀ {fuel : Nat}, L.length ≤ fuel →
    delFrom nodes v i fuel = nodes := by
  intro o L hch
  induction hch with
  | nil => intro i heq; cases heq
  | @cons i0 nd rest hget hrest ih =>
    intro i heq htail fuel hfuel
    cases heq
    match fuel with
    | f + 1 =>
      cases hnext : nd.next with
      | none => simp [delFrom, hget, hnext]
      | some j =>
        rw [hnext] at hrest
        obtain ⟨ndj, rest2, hre, hgetj, hrest2⟩ :
            ∃ ndj rest2, rest = j :: rest2 ∧ nodes[j]? = some ndj ∧
              Chains nodes ndj.next rest2 := by
          cases hrest with
          | cons hg hr => exact ⟨_, _, rfl, hg, hr⟩
        subst hre
        have hvj : ¬ ndj.value = v := by
          have hj := htail j (List.mem_cons_self _ _)
          rwa [valAt_of_getElem? hgetj] at hj
        have hf : (j :: rest2).length ≤ f := by simpa using hfuel
        have htail2 : ∀ k ∈ (j :: rest2).tail, valAt nodes k ≠ v :=
          fun k hk => htail k (List.mem_cons_of_mem _ hk)
        simp [delFrom, hget, hnext, hgetj, hvj, ih hnext htail2 hf]

/-- Delete erases the first occurrence of the value from the sequence. -/
theorem Delete_chains {l : LinkedList} {L : List Nat}
    (h : Chains l.nodes l.head L) (v : Int) :
    ∃ M, Chains (l.Delete v).nodes (l.Delete v).head M ∧
      M.map (valAt (l.Delete v).nodes) =
        (L.map (valAt l.nodes)).eraseP (fun x => x == v) := by
  cases hh : l.head with
  | none =>
    rw [hh] at h
    have hL : L = [] := chains_none h
    subst hL
    rw [Delete_empty hh v]
    exact ⟨[], by rw [hh]; exact Chains.nil, by simp⟩
  | some h0 =>
    rw [hh] at h
    obtain ⟨nd, rest, hre, hget, hrest⟩ :
        ∃ nd rest, L = h0 :: rest ∧ l.nodes[h0]? = some nd ∧
          Chains l.nodes nd.next rest := by
      cases h with
      | cons hg hr => exact ⟨_, _, rfl, hg, hr⟩
    subst hre
    have hvh : valAt l.nodes h0 = nd.value := valAt_of_getElem? hget
    by_cases hv : nd.value = v
    · rw [Delete_head hh hget hv]
      refine ⟨rest, hrest, ?_⟩
      rw [List.map_cons, List.eraseP_cons_of_pos (by simp [hvh, hv])]
    · rw [Delete_tail hh hget hv]
      have hvi : valAt l.nodes h0 ≠ v := by rw [hvh]; exact hv
      have hfuel : (h0 :: rest).length ≤ l.nodes.length + 1 :=
        Nat.le_succ_of_le (chains_length_le (Chains.cons hget hrest))
      obtain ⟨M, _hlen, hval, _hpres, hch2, hvals⟩ :=
        delFrom_spec (Chains.cons hget hrest) rfl hvi hfuel
      refine ⟨M, ?_, ?_⟩
      · show Chains (delFrom l.nodes v h0 (l.nodes.length + 1)) l.head M
        rw [hh]
        exact hch2
      · show M.map (valAt (delFrom l.nodes v h0 (l.nodes.length + 1))) = _
        have hfun : valAt (delFrom l.nodes v h0 (l.nodes.length + 1)) =
            valAt l.nodes := funext hval
        rw [hfun]
        exact hvals

/-- Deleting an absent value leaves the list state unchanged. -/
theorem Delete_not_mem {l : LinkedList} {L : List Nat}
    (h : Chains l.nodes l.head L) {v : Int}
    (hv : v ∉ L.map (valAt l.nodes)) : l.Delete v = l := by
  cases hh : l.head with
  | none => exact Delete_empty hh v
  | some h0 =>
    rw [hh] at h
    obtain ⟨nd, rest, hre, hget, hrest⟩ :
        ∃ nd rest, L = h0 :: rest ∧ l.nodes[h0]? = some nd ∧
          Chains l.nodes nd.next rest := by
      cases h with
      | cons hg hr => exact ⟨_, _, rfl, hg, hr⟩
    subst hre
    have hvh : ¬ nd.value = v := by
      intro he
      refine hv ?_
      rw [List.map_cons, valAt_of_getElem? hget, he]
      exact List.mem_cons_self _ _
    rw [Delete_tail hh hget hvh]
    have htail : ∀ k ∈ (h0 :: rest).tail, valAt l.nodes k ≠ v := by
      intro k hk he
      refine hv ?_
      rw [List.map_cons]
      exact List.mem_cons_of_mem _ (he ▸ List.mem_map_of_mem _ hk)
    have hfuel : (h0 :: rest).length ≤ l.nodes.length + 1 :=
      Nat.le_succ_of_le (chains_length_le (Chains.cons hget hrest))
    rw [delFrom_no_match (Chains.cons hget hrest) rfl htail hfuel]

/-! ## Simulation of operation sequences by abstract sequences -/

theorem chains_of_chain {nodes : List Node} : ∀ {fuel : Nat} {o : Option Nat}
    {L : List Nat}, chain nodes o fuel = some L → Chains nodes o L := by
  intro fuel
  induction fuel with
  | zero =>
    intro o L h
    cases o with
    | none =>
      cases h
      exact Chains.nil
    | some i => cases h
  | succ f ih =>
    intro o L h
    cases o with
    | none =>
      cases h
      exact Chains.nil
    | some i =>
      rw [chain] at h
      cases hget : nodes[i]? with
      | none => rw [hget] at h; cases h
      | some nd =>
        rw [hget] at h
        obtain ⟨rest, hrest, hL⟩ := Option.map_eq_some'.mp h
        rw [← hL]
        exact Chains.cons hget (ih hrest)

theorem values_some_chains {l : LinkedList} {xs : List Int}
    (h : l.values = some xs) :
    ∃ L, Chains l.nodes l.head L ∧ xs = L.map (valAt l.nodes) := by
  obtain ⟨L, hL, hxs⟩ := Option.map_eq_some'.mp h
  exact ⟨L, chains_of_chain hL, hxs.symm⟩

theorem foldl_sim : ∀ (ops : List Op) (l : LinkedList) (L : List Nat),
    Chains l.nodes l.head L →
    ∃ M, Chains (ops.foldl step l).nodes (ops.foldl step l).head M ∧
      M.map (valAt (ops.foldl step l).nodes) =
        ops.foldl absStep (L.map (valAt l.nodes)) := by
  intro ops
  induction ops with
  | nil => intro l L h; exact ⟨L, h, rfl⟩
  | cons op ops ih =>
    intro l L h
    cases op with
    | add v =>
      obtain ⟨hch, hmap⟩ := Add_chains h v
      obtain ⟨M, hch2, hmap2⟩ := ih (l.Add v) (L ++ [l.nodes.length]) hch
      refine ⟨M, hch2, ?_⟩
      rw [List.foldl_cons]
      simp only [step, absStep]
      rw [hmap2, hmap]
      rw [List.foldl_cons]
      simp [absStep]
    | del v =>
      obtain ⟨M1, hch, hmap⟩ := Delete_chains h v
      obtain ⟨M, hch2, hmap2⟩ := ih (l.Delete v) M1 hch
      refine ⟨M, hch2, ?_⟩
      rw [List.foldl_cons]
      simp only [step, absStep]
      rw [hmap2, hmap]
      rw [List.foldl_cons]
      simp [absStep]

theorem run_sim (ops : List Op) :
    ∃ M, Chains (run ops).nodes (run ops).head M ∧
      M.map (valAt (run ops).nodes) = absRun ops :=
  foldl_sim ops LinkedList.empty [] Chains.nil

theorem run_values (ops : List Op) : (run ops).values = some (absRun ops) := by
  obtain ⟨M, hch, hmap⟩ := run_sim ops
  rw [values_eq_of_chains hch, hmap]

theorem run_print (ops : List Op) :
    (run ops).Print = some (render (absRun ops)) := by
  rw [LinkedList.Print, run_values, Option.map_some']

theorem absRun_adds (vs : List Int) : absRun (vs.map Op.add) = vs := by
  suffices h : ∀ (ws xs : List Int),
      (List.map Op.add ws).foldl absStep xs = xs ++ ws by
    simpa [absRun] using h vs []
  intro ws
  induction ws with
  | nil => intro xs; simp
  | cons w ws ih => intro xs; simp [absStep, ih]

/-! ## Rendering equals the std joined form -/

theorem intercalate_go_cons (s : String) : ∀ (l : List String) (a b : String),
    String.intercalate.go a s (b :: l) = a ++ s ++ String.intercalate.go b s l := by
  intro l
  induction l with
  | nil => intro a b; simp [String.intercalate.go]
  | cons c l ih =>
    intro a b
    show String.intercalate.go (a ++ s ++ b) s (c :: l) = _
    rw [ih, ih b c, ← String.append_assoc, ← String.append_assoc]

theorem intercalate_cons_cons (s a b : String) (l : List String) :
    String.intercalate s (a :: b :: l) = a ++ s ++ String.intercalate s (b :: l) := by
  show String.intercalate.go a s (b :: l) = _
  rw [intercalate_go_cons]
  rfl

theorem render_eq_intercalate : ∀ vs : List Int,
    render vs = String.intercalate " -> " (vs.map toString ++ ["nil"]) := by
  intro vs
  induction vs with
  | nil => rfl
  | cons v vs ih =>
    show toString v ++ " -> " ++ render vs = _
    have hsplit : (v :: vs).map toString ++ ["nil"] =
        toString v :: (vs.map toString ++ ["nil"]) := by simp
    rw [hsplit]
    cases hm : vs.map toString ++ ["nil"] with
    | nil => simp at hm
    | cons b t =>
      rw [intercalate_cons_cons, ← hm, ← ih]

/-! ## DoubleArray loop analysis -/

theorem doubleFrom_isSome : ∀ (rem i : Nat) (a : List Int),
    ((doubleFrom a i rem).isSome = true ↔ rem = 0 ∨ i + rem ≤ a.length) := by
  intro rem
  induction rem with
  | zero => intro i a; simp [doubleFrom]
  | succ rem ih =>
    intro i a
    rw [doubleFrom]
    cases hai : a[i]? with
    | none =>
      have hlen : a.length ≤ i := List.getElem?_eq_none_iff.mp hai
      simp
      omega
    | some x =>
      have hilen : i < a.length := (List.getElem?_eq_some.mp hai).1
      show (doubleFrom (a.set i (wrap64 (x * 2))) (i + 1) rem).isSome = true ↔ _
      rw [ih (i + 1) (a.set i (wrap64 (x * 2))), List.length_set]
      omega

theorem doubleFrom_sets : ∀ (rem i : Nat) (a : List Int),
    i + rem ≤ a.length →
    ∃ ys, doubleFrom a i rem = some ys ∧ ys.length = a.length ∧
      (∀ j, j < i → ys[j]? = a[j]?) ∧
      (∀ j, i ≤ j → j < i + rem → ys[j]? = (a[j]?).map (fun x => wrap64 (x * 2))) ∧
      (∀ j, i + rem ≤ j → ys[j]? = a[j]?) := by
  intro rem
  induction rem with
  | zero =>
    intro i a _hla
    exact ⟨a, rfl, rfl, fun j _ => rfl, fun j hij hjl => by omega,
      fun j _ => rfl⟩
  | succ rem ih =>
    intro i a hla
    have hilen : i < a.length := by omega
    obtain ⟨x, hai⟩ : ∃ x, a[i]? = some x := by
      cases hx : a[i]? with
      | none => exact absurd (List.getElem?_eq_none_iff.mp hx) (by omega)
      | some y => exact ⟨y, rfl⟩
    rw [doubleFrom, hai]
    obtain ⟨ys, hys, hlen, hlow, hmid, hhigh⟩ :=
      ih (i + 1) (a.set i (wrap64 (x * 2))) (by rw [List.length_set]; omega)
    refine ⟨ys, hys, by rw [hlen, List.length_set], ?_, ?_, ?_⟩
    · intro j hj
      rw [hlow j (by omega), List.getElem?_set_ne (by omega : i ≠ j)]
    · intro j hij hjl
      by_cases hji : j = i
      · subst hji
        rw [hlow j (by omega), List.getElem?_set_eq_of_lt _ hilen, hai]
        rfl
      · rw [hmid j (by omega) (by omega), List.getElem?_set_ne (by omega : i ≠ j)]
    · intro j hj
      rw [hhigh j (by omega), List.getElem?_set_ne (by omega : i ≠ j)]

/-- Erasing the first match of v splits the sequence at the first occurrence
of v. -/
theorem eraseP_first_decomp {v : Int} : ∀ {xs : List Int}, v ∈ xs →
    ∃ pre post, xs = pre ++ v :: post ∧ v ∉ pre ∧
      xs.eraseP (fun x => x == v) = pre ++ post := by
  intro xs
  induction xs with
  | nil => intro h; cases h
  | cons a t ih =>
    intro hmem
    by_cases ha : a = v
    · subst ha
      refine ⟨[], t, rfl, by simp, ?_⟩
      rw [List.eraseP_cons_of_pos (by simp)]
      rfl
    · have hmem2 : v ∈ t := by
        rcases List.mem_cons.mp hmem with he | h2
        · exact absurd he.symm ha
        · exact h2
      obtain ⟨pre, post, hsp, hnp, her⟩ := ih hmem2
      refine ⟨a :: pre, post, by rw [hsp]; rfl, ?_, ?_⟩
      · intro hmm
        rcases List.mem_cons.mp hmm with he | h2
        · exact ha he.symm
        · exact hnp h2
      · rw [List.eraseP_cons_of_neg (by simp [ha]), her]
        rfl

/-! ## The claims -/

/-- C1: from the empty list, Add(10); Add(20); Add(30) then Print renders
exactly "10 -> 20 -> 30 -> nil", and a subsequent Delete(20) then Print
renders exactly "10 -> 30 -> nil". -/
theorem claim_C1 :
    (run [Op.add 10, Op.add 20, Op.add 30]).Print =
      some "10 -> 20 -> 30 -> nil" ∧
    ((run [Op.add 10, Op.add 20, Op.add 30]).Delete 20).Print =
      some "10 -> 30 -> nil" :=
  ⟨by decide, by decide⟩

/-- C2: appending any N values in order to the empty list with Add and then
rendering yields exactly those values in order joined by the arrow separator
and terminated by the end marker; moreover every Add succeeds, appending its
value, so the length grows by one. -/
theorem claim_C2 (vs : List Int) :
    (run (vs.map Op.add)).values = some vs ∧
    (run (vs.map Op.add)).Print =
      some (String.intercalate " -> " (vs.map toString ++ ["nil"])) ∧
    (∀ (ops : List Op) (v : Int), ∃ xs, (run ops).values = some xs ∧
      ((run ops).Add v).values = some (xs ++ [v])) := by
  refine ⟨?_, ?_, ?_⟩
  · rw [run_values, absRun_adds]
  · rw [run_print, absRun_adds, render_eq_intercalate]
  · intro ops v
    obtain ⟨M, hch, hmap⟩ := run_sim ops
    obtain ⟨hch2, hmap2⟩ := Add_chains hch v
    refine ⟨absRun ops, run_values ops, ?_⟩
    rw [values_eq_of_chains hch2, hmap2, hmap]

/-- C3: for every list state whose traversal yields a value sequence
containing v, Delete(v) excises exactly the first occurrence of v, preserving
the relative order of all remaining values. -/
theorem claim_C3 (l : LinkedList) (v : Int) (xs : List Int)
    (hxs : l.values = some xs) (hv : v ∈ xs) :
    ∃ pre post, xs = pre ++ v :: post ∧ v ∉ pre ∧
      (l.Delete v).values = some (pre ++ post) := by
  obtain ⟨L, hch, hxeq⟩ := values_some_chains hxs
  subst hxeq
  obtain ⟨M, hch2, hmap2⟩ := Delete_chains hch v
  obtain ⟨pre, post, hsplit, hnp, herase⟩ := eraseP_first_decomp hv
  refine ⟨pre, post, hsplit, hnp, ?_⟩
  rw [values_eq_of_chains hch2, hmap2, herase]

/-- Witness for C3: deleting 2 from the list built by Add(1); Add(2); Add(2)
removes only the first 2. -/
theorem claim_C3_witness :
    (run [Op.add 1, Op.add 2, Op.add 2]).values = some [1, 2, 2] ∧
    (2 : Int) ∈ ([1, 2, 2] : List Int) ∧
    (∃ pre post, ([1, 2, 2] : List Int) = pre ++ 2 :: post ∧ (2 : Int) ∉ pre ∧
      ((run [Op.add 1, Op.add 2, Op.add 2]).Delete 2).values =
        some (pre ++ post)) :=
  ⟨by decide, by decide,
    claim_C3 (run [Op.add 1, Op.add 2, Op.add 2]) 2 [1, 2, 2]
      (by decide) (by decide)⟩

/-- C4: deleting a value absent from the value sequence leaves the list state
(and hence its rendering) unchanged, with no error signalled. -/
theorem claim_C4 (l : LinkedList) (v : Int) (xs : List Int)
    (hxs : l.values = some xs) (hv : v ∉ xs) :
    l.Delete v = l ∧ (l.Delete v).Print = l.Print := by
  obtain ⟨L, hch, hxeq⟩ := values_some_chains hxs
  have heq : l.Delete v = l := Delete_not_mem hch (hxeq ▸ hv)
  exact ⟨heq, by rw [heq]⟩

/-- Witness for C4: deleting 5 from the list built by Add(1); Add(2) changes
nothing. -/
theorem claim_C4_witness :
    (run [Op.add 1, Op.add 2]).values = some [1, 2] ∧
    (5 : Int) ∉ ([1, 2] : List Int) ∧
    ((run [Op.add 1, Op.add 2]).Delete 5 = run [Op.add 1, Op.add 2] ∧
      ((run [Op.add 1, Op.add 2]).Delete 5).Print =
        (run [Op.add 1, Op.add 2]).Print) :=
  ⟨by decide, by decide,
    claim_C4 (run [Op.add 1, Op.add 2]) 5 [1, 2] (by decide) (by decide)⟩

/-- C5: on every state reachable from the empty list by Add and Delete, the
next-chain from head terminates within the fuel bound (it is finite and
acyclic: the traversed indices are distinct, in-range arena nodes, each
reached exactly once). -/
theorem claim_C5 (ops : List Op) :
    ∃ L, chain (run ops).nodes (run ops).head
        ((run ops).nodes.length + 1) = some L ∧
      L.Nodup ∧ (∀ i ∈ L, i < (run ops).nodes.length) ∧
      (∀ i ∈ L, L.count i = 1) := by
  obtain ⟨L, hch, _⟩ := run_sim ops
  exact ⟨L, chain_eq_of_chains hch (Nat.le_succ_of_le (chains_length_le hch)),
    chains_nodup hch, chains_lt hch,
    fun i hi => List.count_eq_one_of_mem (chains_nodup hch) hi⟩

/-- C6: on every reachable state, Print renders the stored values joined by
the arrow separator with the trailing end marker, and renders the empty list
as the end marker alone; Print is a pure function of the state. -/
theorem claim_C6 (ops : List Op) :
    LinkedList.empty.Print = some "nil" ∧
    ∃ vs, (run ops).values = some vs ∧
      (run ops).Print =
        some (String.intercalate " -> " (vs.map toString ++ ["nil"])) := by
  refine ⟨rfl, absRun ops, run_values ops, ?_⟩
  rw [run_print, render_eq_intercalate]

/-- C7: Swap exchanges the two cell contents: afterwards the first cell holds
the original second value and the second the original first; in particular
Swap on 5 and 10 yields 10 and 5. -/
theorem claim_C7 (a b : Int) :
    (Swap a b).1 = b ∧ (Swap a b).2 = a ∧ Swap 5 10 = (10, 5) :=
  ⟨rfl, rfl, rfl⟩

/-- C8 counterexample: DoubleArray does not double every element of every
collection: on the length-6 collection of ones the sixth element stays 1, on
a length-3 collection the call panics instead of returning a result, and on a
first element 2^62 the Go int product wraps to -2^63 instead of doubling. -/
theorem claim_C8_counterexample :
    ¬ (DoubleArray [1, 1, 1, 1, 1, 1] =
        some (([1, 1, 1, 1, 1, 1] : List Int).map (fun x => x * 2))) ∧
    DoubleArray [1, 2, 3] = none ∧
    ¬ (DoubleArray [2 ^ 62, 1, 1, 1, 1] =
        some (([2 ^ 62, 1, 1, 1, 1] : List Int).map (fun x => x * 2))) ∧
    DoubleArray [2 ^ 62, 1, 1, 1, 1] = some [-(2 ^ 63), 2, 2, 2, 2] :=
  ⟨by decide, by decide, by decide, by decide⟩

/-- C8 (amended): for every collection of length at least 5, DoubleArray
succeeds and replaces each of the first five elements in place by its double
wrapped to the 64-bit int range, leaving the length and all later elements
unchanged; in particular [1 2 3 4 5] becomes [2 4 6 8 10]. -/
theorem claim_C8 (xs : List Int) (h5 : 5 ≤ xs.length) :
    (∃ ys, DoubleArray xs = some ys ∧ ys.length = xs.length ∧
      (∀ j, j < 5 → ys[j]? = (xs[j]?).map (fun x => wrap64 (x * 2))) ∧
      (∀ j, 5 ≤ j → ys[j]? = xs[j]?)) ∧
    DoubleArray [1, 2, 3, 4, 5] = some [2, 4, 6, 8, 10] := by
  refine ⟨?_, by decide⟩
  obtain ⟨ys, hys, hlen, _hlow, hmid, hhigh⟩ :=
    doubleFrom_sets 5 0 xs (by omega)
  exact ⟨ys, hys, hlen, fun j hj => hmid j (Nat.zero_le j) (by omega),
    fun j hj => hhigh j (by omega)⟩

/-- Witness for C8 at the collection [1, 2, 3, 4, 5]. -/
theorem claim_C8_witness :
    5 ≤ ([1, 2, 3, 4, 5] : List Int).length ∧
    ((∃ ys, DoubleArray [1, 2, 3, 4, 5] = some ys ∧
      ys.length = ([1, 2, 3, 4, 5] : List Int).length ∧
      (∀ j, j < 5 → ys[j]? = (([1, 2, 3, 4, 5] : List Int)[j]?).map
        (fun x => wrap64 (x * 2))) ∧
      (∀ j, 5 ≤ j → ys[j]? = ([1, 2, 3, 4, 5] : List Int)[j]?)) ∧
      DoubleArray [1, 2, 3, 4, 5] = some [2, 4, 6, 8, 10]) :=
  ⟨by decide, claim_C8 [1, 2, 3, 4, 5] (by decide)⟩

/-- C9: DoubleArray always iterates indices 0 through 4 regardless of the
collection length: it returns a result exactly when the collection has length
at least 5, and reaches the out-of-range branch exactly when the length is
less than 5. -/
theorem claim_C9 (xs : List Int) :
    ((DoubleArray xs).isSome = true ↔ 5 ≤ xs.length) ∧
    (DoubleArray xs = none ↔ xs.length < 5) := by
  have h1 : (DoubleArray xs).isSome = true ↔ 5 ≤ xs.length := by
    rw [DoubleArray, doubleFrom_isSome 5 0 xs]
    omega
  refine ⟨h1, ?_⟩
  rw [← Option.not_isSome_iff_eq_none, h1]
  omega

/-- C10: in the slices example, shrinking then regrowing the slice view does
not erase the backing array: from the literal [2 3 5 7 11 13], s[:0] has
length 0 and capacity 6, the following s[:4] again presents 2, 3, 5, 7 with
capacity 6, and the final s[2:] presents 5, 7 with length 2 and capacity 4. -/
theorem claim_C10 :
    ∃ s1 s2 s3,
      (Slice.ofLit [2, 3, 5, 7, 11, 13]).resliceTo 0 = some s1 ∧
      s1.len = 0 ∧ s1.cap = 6 ∧
      s1.resliceTo 4 = some s2 ∧
      s2.elems = [2, 3, 5, 7] ∧ s2.len = 4 ∧ s2.cap = 6 ∧
      s2.resliceFrom 2 = some s3 ∧
      s3.elems = [5, 7] ∧ s3.len = 2 ∧ s3.cap = 4 :=
  ⟨⟨[2, 3, 5, 7, 11, 13], 0, 0⟩, ⟨[2, 3, 5, 7, 11, 13], 0, 4⟩,
    ⟨[2, 3, 5, 7, 11, 13], 2, 4⟩, by decide⟩

end GoNotes
